import Mathlib

set_option maxHeartbeats 1000000

namespace TFKinetics

/-!
Shallow embedding of the two core functions of the repository,
`GMFPT_theory(A, weighted)` and `matrix_with_void(mat0, p_void)`.

Matrices are modelled as total functions `ℕ → ℕ → K` over a linear ordered
field `K`, together with an explicit size `n`; vectors as `ℕ → K`.  All
theorems hold for every such field (in particular the real numbers); the
concrete witnesses and counterexamples instantiate `K := ℚ`, where every
definition evaluates.  The eigendecomposition performed by the external
routine `scipy.linalg.eig` is passed to the solver as an oracle: a vector
`l` of eigenvalues and a family `v` of eigenvectors (`v i` is the `i`-th
eigenvector, sorted ascending by eigenvalue), exactly the arrays the source
builds from the output of `eig` before entering its loops.  The predicate
`IsEigenDecomp` below records what a correct symmetric eigendecomposition
of the Laplacian provides.
-/

variable {K : Type} [LinearOrderedField K]

/-- Row sum `d[i]`, as in `d = np.sum(A, axis=1)` of the source. -/
def degree (n : ℕ) (A : ℕ → ℕ → K) (i : ℕ) : K := ∑ j ∈ Finset.range n, A i j

/-- Total edge weight, as in `E = np.sum(d)/2.` of the source. -/
def totalWeight (n : ℕ) (A : ℕ → ℕ → K) : K := (∑ i ∈ Finset.range n, degree n A i) / 2

/-- Laplacian entry, as in `L = np.diag(d) - A` of the source. -/
def laplacian (n : ℕ) (A : ℕ → ℕ → K) (i j : ℕ) : K :=
  (if i = j then degree n A i else 0) - A i j

/-- Projection of the degree vector on the eigenvectors, as in
`dv = np.dot(v, d)` of the source: `dv[i] = Σ_k v[i,k]·d[k]`. -/
def dproj (n : ℕ) (A : ℕ → ℕ → K) (v : ℕ → ℕ → K) (i : ℕ) : K :=
  ∑ k ∈ Finset.range n, v i k * degree n A k

/-- Accumulation loop `for i in range(1, 1+m) : acc += f(i)` starting from `0`,
mirroring the `T[j] +=` loops of the source (`m = N-1` there). -/
def loopAcc (m : ℕ) (f : ℕ → K) : K :=
  (List.range' 1 m).foldl (fun acc i => acc + f i) 0

/-- Shallow embedding of `GMFPT_theory(A, weighted)` from the source.  The
eigendecomposition `(l, v)` of the Laplacian is an oracle argument (the
source obtains it from `scipy.linalg.eig` and sorts it ascending).  The
result is `none` exactly when the Python code raises: for `weighted=False`
and `N = 1` the final scaling `float(N)/(N-1.0)` is a Python float division
by zero, which raises `ZeroDivisionError`; every other division in the
source is a NumPy array/scalar division, which never raises. -/
def GMFPT_theory (n : ℕ) (A : ℕ → ℕ → K) (l : ℕ → K) (v : ℕ → ℕ → K)
    (weighted : Bool) : Option (ℕ → K) :=
  if weighted = false then
    if n = 1 then none
    else
      some (fun j => (n : K) / ((n : K) - 1) *
        loopAcc (n - 1) (fun i =>
          1 / l i * (2 * totalWeight n A * (v i j) ^ 2 - v i j * dproj n A v i)))
  else
    some (fun j =>
      loopAcc (n - 1) (fun i =>
        1 / l i * ((2 * totalWeight n A) ^ 2 * (v i j) ^ 2
          - 2 * v i j * (2 * totalWeight n A) * (v i j * dproj n A v i)
          - (v i j * dproj n A v i) ^ 2)) / (2 * totalWeight n A))

/-- Shallow embedding of `matrix_with_void(mat0, p_void)` from the source:
the result is the `(n+1)×(n+1)` matrix whose top-left block is `mat0`,
whose last row and column carry `lambda_j = p_void * d_j / (1 - p_void)`,
and whose corner `[n,n]` keeps the `np.zeros` value `0`.  Indices outside
the `(n+1)×(n+1)` range are mapped to `0` (they do not exist in the NumPy
array). -/
def matrix_with_void (n : ℕ) (mat0 : ℕ → ℕ → K) (p_void : K) (i j : ℕ) : K :=
  if i < n ∧ j < n then mat0 i j
  else if i < n ∧ j = n then p_void * degree n mat0 i / (1 - p_void)
  else if i = n ∧ j < n then p_void * degree n mat0 j / (1 - p_void)
  else 0

/-! Definitions written from the wording of the specification, for the
refinement claims about the two solver variants. -/

/-- Weighted GMFPT formula as the specification words it: accumulate
`T[j] += (1/λ_i) · ((2E)²·v[i,j]² − 4E·v[i,j]·dv[i] − dv[i]²)` over the
retained modes `i = 1..N-1`, then divide by `2E`. -/
def specWeightedGMFPT (n : ℕ) (A : ℕ → ℕ → K) (l : ℕ → K) (v : ℕ → ℕ → K)
    (j : ℕ) : K :=
  (∑ i ∈ Finset.Ico 1 n,
    1 / l i * ((2 * totalWeight n A) ^ 2 * (v i j) ^ 2
      - 4 * totalWeight n A * v i j * dproj n A v i
      - (dproj n A v i) ^ 2)) / (2 * totalWeight n A)

/-- Unweighted GMFPT formula as the specification words it: accumulate
`T[j] += (1/λ_i) · (2E·v[i,j]² − v[i,j]·dv[i])` over the retained modes,
then scale by `N/(N−1)`. -/
def specUnweightedGMFPT (n : ℕ) (A : ℕ → ℕ → K) (l : ℕ → K) (v : ℕ → ℕ → K)
    (j : ℕ) : K :=
  (n : K) / ((n : K) - 1) *
    ∑ i ∈ Finset.Ico 1 n,
      1 / l i * (2 * totalWeight n A * (v i j) ^ 2 - v i j * dproj n A v i)

/-- Weighted GMFPT formula actually computed by the source: the last two
terms use `dvi = v[i,j]·dv[i]` (a per-node quantity), not `dv[i]` itself. -/
def codeWeightedGMFPT (n : ℕ) (A : ℕ → ℕ → K) (l : ℕ → K) (v : ℕ → ℕ → K)
    (j : ℕ) : K :=
  (∑ i ∈ Finset.Ico 1 n,
    1 / l i * ((2 * totalWeight n A) ^ 2 * (v i j) ^ 2
      - 4 * totalWeight n A * v i j * (v i j * dproj n A v i)
      - (v i j * dproj n A v i) ^ 2)) / (2 * totalWeight n A)

/-! Side conditions appearing in the claims. -/

/-- Symmetry of an `n×n` matrix. -/
def MatSymm (n : ℕ) (A : ℕ → ℕ → K) : Prop :=
  ∀ i, i < n → ∀ j, j < n → A i j = A j i

/-- Entrywise non-negativity of an `n×n` matrix. -/
def MatNonneg (n : ℕ) (A : ℕ → ℕ → K) : Prop :=
  ∀ i, i < n → ∀ j, j < n → 0 ≤ A i j

/-- Adjacency relation of the weighted graph. -/
def Adj (n : ℕ) (A : ℕ → ℕ → K) (i j : ℕ) : Prop :=
  i < n ∧ j < n ∧ A i j ≠ 0

/-- Connectivity of the weighted graph on nodes `0..n-1`. -/
def IsConnected (n : ℕ) (A : ℕ → ℕ → K) : Prop :=
  ∀ i, i < n → ∀ j, j < n → Relation.ReflTransGen (Adj n A) i j

/-- What a correct symmetric eigendecomposition of the Laplacian of `A`,
sorted ascending by eigenvalue, provides: sortedness, the eigenvector
equations, unit norms and pairwise orthogonality. -/
def IsEigenDecomp (n : ℕ) (A : ℕ → ℕ → K) (l : ℕ → K) (v : ℕ → ℕ → K) : Prop :=
  (∀ i, i < n → ∀ j, j < n → i ≤ j → l i ≤ l j) ∧
  (∀ i, i < n → ∀ x, x < n →
    ∑ k ∈ Finset.range n, laplacian n A x k * v i k = l i * v i x) ∧
  (∀ i, i < n → ∑ k ∈ Finset.range n, (v i k) ^ 2 = 1) ∧
  (∀ i, i < n → ∀ j, j < n → i ≠ j → ∑ k ∈ Finset.range n, v i k * v j k = 0)

/-- Entrywise scaling of a matrix by a constant. -/
def scaleM (c : K) (A : ℕ → ℕ → K) (i j : ℕ) : K := c * A i j

/-- Entrywise scaling of a vector by a constant. -/
def scaleV (c : K) (l : ℕ → K) (i : ℕ) : K := c * l i

/-! Concrete instances over `ℚ` used by witnesses and counterexamples. -/

/-- The 2-node chain (one unit edge): a valid symmetric non-negative base. -/
def chain2 : ℕ → ℕ → ℚ := fun i j =>
  if (i = 0 ∧ j = 1) ∨ (i = 1 ∧ j = 0) then 1 else 0

/-- The all-zero 2×2 matrix: a square, symmetric, non-negative, finite base
whose two nodes are isolated (degree 0). -/
def zeros2 : ℕ → ℕ → ℚ := fun _ _ => 0

/-- The 4-cycle 0-1-2-3-0 with unit weights: connected and regular. -/
def cyc4 : ℕ → ℕ → ℚ := fun i j =>
  if i = 0 then (if j = 1 then 1 else if j = 3 then 1 else 0)
  else if i = 1 then (if j = 0 then 1 else if j = 2 then 1 else 0)
  else if i = 2 then (if j = 1 then 1 else if j = 3 then 1 else 0)
  else if i = 3 then (if j = 0 then 1 else if j = 2 then 1 else 0)
  else 0

/-- Laplacian eigenvalues of the 4-cycle, sorted ascending: 0, 2, 2, 4. -/
def cyc4l : ℕ → ℚ := fun i => if i = 1 ∨ i = 2 then 2 else if i = 3 then 4 else 0

/-- A rational orthonormal eigenbasis of the 4-cycle Laplacian, matching
`cyc4l`: rows (1,1,1,1)/2, (1,1,−1,−1)/2, (1,−1,−1,1)/2, (1,−1,1,−1)/2. -/
def cyc4v : ℕ → ℕ → ℚ := fun i k =>
  if 3 < i ∨ 3 < k then 0
  else if i = 0 then 1/2
  else if i = 1 then (if k < 2 then 1/2 else -1/2)
  else if i = 2 then (if k = 0 ∨ k = 3 then 1/2 else -1/2)
  else (if k = 0 ∨ k = 2 then 1/2 else -1/2)

/-- Two disjoint unit edges 0-1 and 2-3: a symmetric non-negative but
disconnected graph, whose Laplacian has the eigenvalue 0 twice. -/
def disc4 : ℕ → ℕ → ℚ := fun i j =>
  if (i = 0 ∧ j = 1) ∨ (i = 1 ∧ j = 0) ∨ (i = 2 ∧ j = 3) ∨ (i = 3 ∧ j = 2)
  then 1 else 0

/-- Laplacian eigenvalues of the two disjoint edges, sorted: 0, 0, 2, 2. -/
def disc4l : ℕ → ℚ := fun i => if i = 2 ∨ i = 3 then 2 else 0

/-- A rational orthonormal eigenbasis of the two-edges Laplacian, matching
`disc4l`: rows (1,1,1,1)/2, (1,1,−1,−1)/2, (1,−1,1,−1)/2, (1,−1,−1,1)/2. -/
def disc4v : ℕ → ℕ → ℚ := fun i k =>
  if 3 < i ∨ 3 < k then 0
  else if i = 0 then 1/2
  else if i = 1 then (if k < 2 then 1/2 else -1/2)
  else if i = 2 then (if k = 0 ∨ k = 2 then 1/2 else -1/2)
  else (if k = 0 ∨ k = 3 then 1/2 else -1/2)

/-- A weighted complete graph on 4 nodes, rows (0,27,33,21), (27,0,5,49),
(33,5,0,27), (21,49,27,0), whose Laplacian has the exactly known spectrum
0, 72, 108, 144 with a rational orthonormal eigenbasis; its degrees
(81, 81, 65, 97) are not constant, so the degree projections dv do not
vanish on the retained modes. -/
def w4 : ℕ → ℕ → ℚ := fun i j =>
  if i = 0 then (if j = 1 then 27 else if j = 2 then 33 else if j = 3 then 21 else 0)
  else if i = 1 then (if j = 0 then 27 else if j = 2 then 5 else if j = 3 then 49 else 0)
  else if i = 2 then (if j = 0 then 33 else if j = 1 then 5 else if j = 3 then 27 else 0)
  else if i = 3 then (if j = 0 then 21 else if j = 1 then 49 else if j = 2 then 27 else 0)
  else 0

/-- Laplacian eigenvalues of `w4`, sorted ascending: 0, 72, 108, 144. -/
def w4l : ℕ → ℚ := fun i =>
  if i = 1 then 72 else if i = 2 then 108 else if i = 3 then 144 else 0

/-- The rational orthonormal eigenbasis of the Laplacian of `w4`, matching
`w4l`: rows (1,1,1,1)/2, (3,−11,13,−5)/18, (−15,1,7,7)/18, (−3,11,5,−13)/18. -/
def w4v : ℕ → ℕ → ℚ := fun i k =>
  if i = 0 then (if k < 4 then 1/2 else 0)
  else if i = 1 then (if k = 0 then 1/6 else if k = 1 then -11/18
    else if k = 2 then 13/18 else if k = 3 then -5/18 else 0)
  else if i = 2 then (if k = 0 then -5/6 else if k = 1 then 1/18
    else if k = 2 then 7/18 else if k = 3 then 7/18 else 0)
  else if i = 3 then (if k = 0 then -1/6 else if k = 1 then 11/18
    else if k = 2 then 5/18 else if k = 3 then -13/18 else 0)
  else 0

/-! Helper lemmas. -/

theorem foldl_add_eq_sum (g : ℕ → K) :
    ∀ (L : List ℕ) (a : K), L.foldl (fun acc i => acc + g i) a = a + (L.map g).sum := by
  intro L
  induction L with
  | nil => intro a; simp
  | cons x xs ih =>
      intro a
      simp only [List.foldl_cons, List.map_cons, List.sum_cons, ih]
      ring

theorem range'_map_sum (g : ℕ → K) :
    ∀ (m a : ℕ), ((List.range' a m).map g).sum = ∑ i ∈ Finset.Ico a (a + m), g i := by
  intro m
  induction m with
  | zero => intro a; simp
  | succ m ih =>
      intro a
      rw [List.range'_succ, List.map_cons, List.sum_cons, ih (a + 1),
        Finset.sum_eq_sum_Ico_succ_bot (by omega : a < a + (m + 1)) g,
        show a + 1 + m = a + (m + 1) from by omega]

theorem loopAcc_eq_sum (m : ℕ) (f : ℕ → K) :
    loopAcc m f = ∑ i ∈ Finset.Ico 1 (1 + m), f i := by
  rw [loopAcc, foldl_add_eq_sum, range'_map_sum, zero_add]

theorem loopAcc_eq_sum_pred (n : ℕ) (hn : 1 ≤ n) (f : ℕ → K) :
    loopAcc (n - 1) f = ∑ i ∈ Finset.Ico 1 n, f i := by
  rw [loopAcc_eq_sum, show 1 + (n - 1) = n from by omega]

/-! State-passing model of the two functions, for the frame (no-mutation)
claim.  Each NumPy assignment statement of the source is one step; the
caller-owned input array is one component of the store, the freshly
allocated output array the other, and every step only rebinds the output
component. -/

/-- Store of the augmenter: the caller-owned base array `mat0` and the
array `mat` being built. -/
structure AugStore (K : Type) where
  mat0 : ℕ → ℕ → K
  mat : ℕ → ℕ → K

/-- Step `mat = np.zeros((N+1,N+1))` of the source. -/
def augAlloc (s : AugStore K) : AugStore K :=
  { s with mat := fun _ _ => 0 }

/-- Step `mat[:N,:N] = mat0` of the source. -/
def augFillBlock (n : ℕ) (s : AugStore K) : AugStore K :=
  { s with mat := fun i j => if i < n ∧ j < n then s.mat0 i j else s.mat i j }

/-- Step `mat[N,:-1] = lambda_j` of the source. -/
def augFillRow (n : ℕ) (p : K) (s : AugStore K) : AugStore K :=
  { s with mat := fun i j =>
      if i = n ∧ j < n then p * degree n s.mat0 j / (1 - p) else s.mat i j }

/-- Step `mat[:-1,N] = lambda_j` of the source. -/
def augFillCol (n : ℕ) (p : K) (s : AugStore K) : AugStore K :=
  { s with mat := fun i j =>
      if i < n ∧ j = n then p * degree n s.mat0 i / (1 - p) else s.mat i j }

/-- The body of `matrix_with_void` as a state transformer: allocate, fill
the block, fill the last row, fill the last column. -/
def matrix_with_void_run (n : ℕ) (p : K) (s : AugStore K) : AugStore K :=
  augFillCol n p (augFillRow n p (augFillBlock n (augAlloc s)))

/-- Store of the solver: the caller-owned adjacency array `A` and the
local accumulator array `T`. -/
structure SolveStore (K : Type) where
  A : ℕ → ℕ → K
  T : ℕ → K

/-- One pass of the accumulation `T[j] += body j i` of the source (the
`body` is the summand of either variant). -/
def solveStep (body : ℕ → ℕ → K) (j : ℕ) (s : SolveStore K) (i : ℕ) : SolveStore K :=
  { s with T := fun j' => if j' = j then s.T j + body j i else s.T j' }

/-- The nested loops `for j in range(N) : for i in range(1,N) : T[j] += …`
of the source. -/
def solveLoops (n : ℕ) (body : ℕ → ℕ → K) (s : SolveStore K) : SolveStore K :=
  (List.range n).foldl
    (fun s1 j => (List.range' 1 (n - 1)).foldl (solveStep body j) s1) s

/-- `T = np.zeros(N)` followed by the nested loops of the source. -/
def solveRun (n : ℕ) (body : ℕ → ℕ → K) (s : SolveStore K) : SolveStore K :=
  solveLoops n body { s with T := fun _ => 0 }

theorem inner_foldl_T (body : ℕ → ℕ → K) (j : ℕ) :
    ∀ (L : List ℕ) (s : SolveStore K),
      (L.foldl (solveStep body j) s).T =
        fun j' => if j' = j then s.T j + (L.map (body j)).sum else s.T j' := by
  intro L
  induction L with
  | nil =>
      intro s
      funext j'
      by_cases h : j' = j <;> simp [h]
  | cons x xs ih =>
      intro s
      rw [List.foldl_cons, ih]
      funext j'
      simp only [solveStep, List.map_cons, List.sum_cons, if_pos rfl]
      by_cases h : j' = j
      · simp only [if_pos h, if_true, ite_true]
        ring
      · simp only [if_neg h]

theorem inner_foldl_A (body : ℕ → ℕ → K) (j : ℕ) :
    ∀ (L : List ℕ) (s : SolveStore K),
      (L.foldl (solveStep body j) s).A = s.A := by
  intro L
  induction L with
  | nil => intro s; rfl
  | cons x xs ih => intro s; rw [List.foldl_cons, ih]; rfl

theorem outer_foldl_A (n : ℕ) (body : ℕ → ℕ → K) :
    ∀ (js : List ℕ) (s : SolveStore K),
      ((js.foldl (fun s1 j => (List.range' 1 (n - 1)).foldl (solveStep body j) s1) s)).A
        = s.A := by
  intro js
  induction js with
  | nil => intro s; rfl
  | cons x xs ih => intro s; rw [List.foldl_cons, ih, inner_foldl_A]

theorem outer_foldl_T (n : ℕ) (body : ℕ → ℕ → K) :
    ∀ (js : List ℕ) (s : SolveStore K) (j : ℕ),
      ((js.foldl (fun s1 j => (List.range' 1 (n - 1)).foldl (solveStep body j) s1) s)).T j
        = s.T j +
          (js.map (fun j' => if j = j' then ((List.range' 1 (n - 1)).map (body j)).sum
            else 0)).sum := by
  intro js
  induction js with
  | nil => intro s j; simp
  | cons x xs ih =>
      intro s j
      rw [List.foldl_cons, ih, List.map_cons, List.sum_cons, inner_foldl_T]
      by_cases h : j = x
      · subst h
        simp only [if_pos rfl, ite_true]
        ring
      · simp only [if_neg h, ite_false]
        ring

theorem range_indicator_sum (c : K) (j : ℕ) :
    ∀ m : ℕ, ((List.range m).map (fun j' => if j = j' then c else 0)).sum
      = if j < m then c else 0 := by
  intro m
  induction m with
  | zero => simp
  | succ m ih =>
      rw [List.range_succ, List.map_append, List.sum_append, ih]
      simp only [List.map_cons, List.map_nil, List.sum_cons, List.sum_nil, add_zero]
      by_cases h : j < m
      · rw [if_pos h, if_neg (show ¬j = m from by omega), if_pos (show j < m + 1 from by omega)]
        ring
      · by_cases h2 : j = m
        · subst h2
          rw [if_neg h, if_pos rfl, if_pos (show j < j + 1 from by omega)]
          ring
        · rw [if_neg h, if_neg h2, if_neg (show ¬j < m + 1 from by omega)]
          ring

theorem solveRun_A (n : ℕ) (body : ℕ → ℕ → K) (s : SolveStore K) :
    (solveRun n body s).A = s.A := by
  rw [solveRun, solveLoops, outer_foldl_A]

theorem solveRun_T (n : ℕ) (body : ℕ → ℕ → K) (s : SolveStore K) (j : ℕ)
    (hj : j < n) : (solveRun n body s).T j = loopAcc (n - 1) (body j) := by
  rw [solveRun, solveLoops, outer_foldl_T, range_indicator_sum, if_pos hj,
    loopAcc, foldl_add_eq_sum, zero_add]

/-- Entry characterization of the augmented matrix, for any `p_void` at all:
the source performs no validation, so the formula describes the result
unconditionally (helper). -/
theorem matrix_with_void_entries (n : ℕ) (A : ℕ → ℕ → K) (p : K) :
    (∀ i, i < n → ∀ j, j < n → matrix_with_void n A p i j = A i j) ∧
    (∀ i, i < n → matrix_with_void n A p i n = p * degree n A i / (1 - p) ∧
      matrix_with_void n A p n i = p * degree n A i / (1 - p)) ∧
    matrix_with_void n A p n n = 0 := by
  refine ⟨?_, ?_, ?_⟩
  · intro i hi j hj
    rw [matrix_with_void, if_pos ⟨hi, hj⟩]
  · intro i hi
    constructor
    · rw [matrix_with_void, if_neg (by omega), if_pos ⟨hi, rfl⟩]
    · rw [matrix_with_void, if_neg (by omega), if_neg (by omega), if_pos ⟨rfl, hi⟩]
  · rw [matrix_with_void, if_neg (by omega), if_neg (by omega), if_neg (by omega)]

/-! Claim theorems about the augmenter, and the frame and safety claims. -/

/-- Claim C2: for every square base matrix of size N and p_void in (0,1),
the augmenter returns the (N+1)×(N+1) matrix whose top-left block is the
base unchanged, whose entries [i,N] and [N,i] are p_void·degree(i)/(1−p_void),
and whose [N,N] entry is 0. -/
theorem matrix_with_void_spec (n : ℕ) (A : ℕ → ℕ → K) (p : K)
    (hp0 : 0 < p) (hp1 : p < 1) :
    (∀ i, i < n → ∀ j, j < n → matrix_with_void n A p i j = A i j) ∧
    (∀ i, i < n → matrix_with_void n A p i n = p * degree n A i / (1 - p) ∧
      matrix_with_void n A p n i = p * degree n A i / (1 - p)) ∧
    matrix_with_void n A p n n = 0 :=
  matrix_with_void_entries n A p

/-- Witness for C2: the 2-node chain with p_void = 1/3. -/
theorem matrix_with_void_spec_witness :
    (0 : ℚ) < 1/3 ∧ (1/3 : ℚ) < 1 ∧
    ((∀ i, i < 2 → ∀ j, j < 2 → matrix_with_void 2 chain2 (1/3) i j = chain2 i j) ∧
     (∀ i, i < 2 → matrix_with_void 2 chain2 (1/3) i 2 =
        (1/3) * degree 2 chain2 i / (1 - 1/3) ∧
      matrix_with_void 2 chain2 (1/3) 2 i = (1/3) * degree 2 chain2 i / (1 - 1/3)) ∧
     matrix_with_void 2 chain2 (1/3) 2 2 = 0) :=
  ⟨by norm_num, by norm_num, matrix_with_void_spec 2 chain2 (1/3) (by norm_num) (by norm_num)⟩

/-- Claim C7: for a symmetric base and any p_void in (0,1), the augmented
matrix is symmetric and its top-left N×N block equals the base exactly. -/
theorem matrix_with_void_symm (n : ℕ) (A : ℕ → ℕ → K) (p : K)
    (hp0 : 0 < p) (hp1 : p < 1) (hsym : MatSymm n A) :
    MatSymm (n + 1) (matrix_with_void n A p) ∧
    (∀ i, i < n → ∀ j, j < n → matrix_with_void n A p i j = A i j) := by
  constructor
  · intro i hi j hj
    by_cases hij : i < n ∧ j < n
    · rw [matrix_with_void, if_pos hij, matrix_with_void, if_pos ⟨hij.2, hij.1⟩]
      exact hsym i hij.1 j hij.2
    · by_cases hin : i < n
      · have hjn : j = n := by omega
        rw [matrix_with_void, if_neg (by omega), if_pos ⟨hin, hjn⟩,
          matrix_with_void, if_neg (by omega), if_neg (by omega), if_pos ⟨hjn, hin⟩]
      · have hin' : i = n := by omega
        by_cases hjn : j < n
        · rw [matrix_with_void, if_neg (by omega), if_neg (by omega), if_pos ⟨hin', hjn⟩,
            matrix_with_void, if_neg (by omega), if_pos ⟨hjn, hin'⟩]
        · rw [matrix_with_void, if_neg (by omega), if_neg (by omega), if_neg (by omega),
            matrix_with_void, if_neg (by omega), if_neg (by omega), if_neg (by omega)]
  · intro i hi j hj
    rw [matrix_with_void, if_pos ⟨hi, hj⟩]

/-- Witness for C7: the 2-node chain with p_void = 1/2. -/
theorem matrix_with_void_symm_witness :
    (0 : ℚ) < 1/2 ∧ (1/2 : ℚ) < 1 ∧ MatSymm 2 chain2 ∧
    (MatSymm 3 (matrix_with_void 2 chain2 (1/2)) ∧
     ∀ i, i < 2 → ∀ j, j < 2 → matrix_with_void 2 chain2 (1/2) i j = chain2 i j) :=
  ⟨by norm_num, by norm_num,
   by intro i hi j hj; interval_cases i <;> interval_cases j <;> norm_num [chain2],
   matrix_with_void_symm 2 chain2 (1/2) (by norm_num) (by norm_num)
     (by intro i hi j hj; interval_cases i <;> interval_cases j <;> norm_num [chain2])⟩

/-- Amended C8: increasing p_void strictly increases the void coupling of
every node of positive degree (for an isolated node the coupling is 0 for
every p_void, so the strict increase claimed for every entry fails there). -/
theorem void_coupling_strict_mono (n : ℕ) (A : ℕ → ℕ → K) (p1 p2 : K) (i : ℕ)
    (hi : i < n) (h0 : 0 < p1) (h12 : p1 < p2) (h1 : p2 < 1)
    (hd : 0 < degree n A i) :
    matrix_with_void n A p1 i n < matrix_with_void n A p2 i n := by
  rw [matrix_with_void, if_neg (by omega), if_pos ⟨hi, rfl⟩,
    matrix_with_void, if_neg (by omega), if_pos ⟨hi, rfl⟩]
  rw [div_lt_div_iff (by linarith) (by linarith)]
  nlinarith

/-- Witness for the amended C8: the 2-node chain, p_void 1/4 versus 1/2. -/
theorem void_coupling_strict_mono_witness :
    0 < 2 ∧ (0 : ℚ) < 1/4 ∧ (1/4 : ℚ) < 1/2 ∧ (1/2 : ℚ) < 1 ∧
      (0 : ℚ) < degree 2 chain2 0 ∧
      matrix_with_void 2 chain2 (1/4) 0 2 < matrix_with_void 2 chain2 (1/2) 0 2 :=
  ⟨by norm_num, by norm_num, by norm_num, by norm_num,
   by norm_num [degree, chain2, Finset.sum_range_succ, Finset.sum_range_zero],
   void_coupling_strict_mono 2 chain2 (1/4) (1/2) 0 (by norm_num) (by norm_num)
     (by norm_num) (by norm_num)
     (by norm_num [degree, chain2, Finset.sum_range_succ, Finset.sum_range_zero])⟩

/-- Counterexample to C8 as stated: for the all-zero (valid: square,
symmetric, non-negative) base, the void coupling of node 0 is 0 for both
p_void = 1/4 and p_void = 1/2, so it does not strictly increase. -/
theorem void_coupling_mono_cex :
    (0 : ℚ) < 1/4 ∧ (1/4 : ℚ) < 1/2 ∧ (1/2 : ℚ) < 1 ∧
    MatSymm 2 zeros2 ∧ MatNonneg 2 zeros2 ∧
    ¬ matrix_with_void 2 zeros2 (1/4) 0 2 < matrix_with_void 2 zeros2 (1/2) 0 2 := by
  refine ⟨by norm_num, by norm_num, by norm_num,
    by intro i hi j hj; norm_num [zeros2],
    by intro i hi j hj; norm_num [zeros2], ?_⟩
  norm_num [matrix_with_void, degree, zeros2, Finset.sum_range_succ, Finset.sum_range_zero]

/-- Amended C4: the augmenter performs no input validation at all; for any
p_void (here: any p_void ≠ 1, where the real division is defined) it simply
returns the matrix built from the same formula — out-of-range p_void yields
an out-of-spec matrix (e.g. negative couplings) rather than an
InvalidParameter failure. -/
theorem matrix_with_void_no_validation (n : ℕ) (A : ℕ → ℕ → K) (p : K)
    (hp : p ≠ 1) :
    (∀ i, i < n → ∀ j, j < n → matrix_with_void n A p i j = A i j) ∧
    (∀ i, i < n → matrix_with_void n A p i n = p * degree n A i / (1 - p) ∧
      matrix_with_void n A p n i = p * degree n A i / (1 - p)) ∧
    matrix_with_void n A p n n = 0 :=
  matrix_with_void_entries n A p

/-- Witness for the amended C4: p_void = 2, far outside (0,1). -/
theorem matrix_with_void_no_validation_witness :
    (2 : ℚ) ≠ 1 ∧
    ((∀ i, i < 2 → ∀ j, j < 2 → matrix_with_void 2 chain2 2 i j = chain2 i j) ∧
     (∀ i, i < 2 → matrix_with_void 2 chain2 2 i 2 = 2 * degree 2 chain2 i / (1 - 2) ∧
       matrix_with_void 2 chain2 2 2 i = 2 * degree 2 chain2 i / (1 - 2)) ∧
     matrix_with_void 2 chain2 2 2 2 = 0) :=
  ⟨by norm_num, matrix_with_void_no_validation 2 chain2 2 (by norm_num)⟩

/-- Counterexample to C4 as stated: with p_void = 2 ≥ 1 the call does not
fail; it returns a definite matrix, with the (out-of-spec, negative) void
coupling −2 for node 0 and the base block unchanged. -/
theorem matrix_with_void_invalid_p_cex :
    (1 : ℚ) ≤ 2 ∧ matrix_with_void 2 chain2 2 0 2 = -2 ∧
    matrix_with_void 2 chain2 2 2 0 = -2 ∧
    matrix_with_void 2 chain2 2 0 1 = 1 ∧
    matrix_with_void 2 chain2 2 2 2 = 0 := by
  refine ⟨by norm_num, ?_, ?_, ?_, ?_⟩ <;>
    norm_num [matrix_with_void, degree, chain2, Finset.sum_range_succ, Finset.sum_range_zero]

/-- Claim C10: invoked on a 1×1 matrix with weighted=false, the solver does
not return a vector: the final scaling float(N)/(N−1.0) is a Python float
division by zero and raises ZeroDivisionError (modelled as `none`), for any
input matrix and any eigendecomposition. -/
theorem unweighted_singleton_raises (A : ℕ → ℕ → K) (l : ℕ → K)
    (v : ℕ → ℕ → K) : GMFPT_theory 1 A l v false = none := rfl

/-- Claim C9: neither function mutates its caller-owned input array.  In
the state-passing model the augmenter leaves the base component `mat0`
untouched and builds its result in the freshly allocated array `mat`
(which afterwards holds exactly `matrix_with_void` of the base, so the
result shares no state with the base), and the solver's loops leave the
input component `A` untouched, writing only the local accumulator `T`. -/
theorem no_input_mutation (n : ℕ) (p : K) (s : AugStore K)
    (body : ℕ → ℕ → K) (t : SolveStore K) :
    (matrix_with_void_run n p s).mat0 = s.mat0 ∧
    (∀ i j, (matrix_with_void_run n p s).mat i j = matrix_with_void n s.mat0 p i j) ∧
    (solveRun n body t).A = t.A ∧
    (∀ j, j < n → (solveRun n body t).T j = loopAcc (n - 1) (body j)) := by
  refine ⟨rfl, ?_, solveRun_A n body t, fun j hj => solveRun_T n body t j hj⟩
  intro i j
  simp only [matrix_with_void_run, augFillCol, augFillRow, augFillBlock, augAlloc,
    matrix_with_void]
  by_cases h1 : i < n ∧ j < n
  · rw [if_neg (by omega), if_neg (by omega), if_pos h1, if_pos h1]
  · by_cases h2 : i < n ∧ j = n
    · rw [if_pos h2, if_neg h1, if_pos h2]
    · by_cases h3 : i = n ∧ j < n
      · rw [if_neg h2, if_pos h3, if_neg h1, if_neg h2, if_pos h3]
      · rw [if_neg h2, if_neg h3, if_neg h1, if_neg h1, if_neg h2, if_neg h3]

/-! Scaling lemmas (helpers for the scale-invariance claim). -/

theorem degree_scale (n : ℕ) (c : K) (A : ℕ → ℕ → K) (i : ℕ) :
    degree n (scaleM c A) i = c * degree n A i := by
  rw [degree, degree, Finset.mul_sum]
  rfl

theorem totalWeight_scale (n : ℕ) (c : K) (A : ℕ → ℕ → K) :
    totalWeight n (scaleM c A) = c * totalWeight n A := by
  rw [totalWeight, totalWeight,
    show (∑ i ∈ Finset.range n, degree n (scaleM c A) i)
      = ∑ i ∈ Finset.range n, c * degree n A i from
      Finset.sum_congr rfl (fun i _ => degree_scale n c A i),
    ← Finset.mul_sum, mul_div_assoc]

theorem dproj_scale (n : ℕ) (c : K) (A : ℕ → ℕ → K) (v : ℕ → ℕ → K) (i : ℕ) :
    dproj n (scaleM c A) v i = c * dproj n A v i := by
  rw [dproj, dproj, Finset.mul_sum]
  refine Finset.sum_congr rfl (fun k _ => ?_)
  rw [degree_scale]
  ring

theorem laplacian_scale (n : ℕ) (c : K) (A : ℕ → ℕ → K) (i j : ℕ) :
    laplacian n (scaleM c A) i j = c * laplacian n A i j := by
  simp only [laplacian, scaleM, degree_scale]
  by_cases h : i = j
  · rw [if_pos h, if_pos h]; ring
  · rw [if_neg h, if_neg h]; ring

theorem inv_scale_mul (c a y : K) (hc : c ≠ 0) :
    1 / (c * a) * (c * y) = 1 / a * y := by
  rw [one_div, one_div, mul_inv]
  calc c⁻¹ * a⁻¹ * (c * y) = c⁻¹ * c * (a⁻¹ * y) := by ring
    _ = a⁻¹ * y := by rw [inv_mul_cancel₀ hc, one_mul]

theorem inv_scale_mul_sq (c a y : K) (hc : c ≠ 0) :
    1 / (c * a) * (c ^ 2 * y) = c * (1 / a * y) := by
  rw [one_div, one_div, mul_inv]
  calc c⁻¹ * a⁻¹ * (c ^ 2 * y) = c⁻¹ * c * (c * (a⁻¹ * y)) := by ring
    _ = c * (a⁻¹ * y) := by rw [inv_mul_cancel₀ hc, one_mul]

/-! Claim theorems about the solver. -/

/-- Claim C3: for every matrix and every eigendecomposition oracle, with
N ≥ 2, the unweighted call returns exactly the vector the specification
describes: T[j] = Σ over modes 1..N−1 of (1/λ_i)·(2E·v[i,j]² − v[i,j]·dv[i]),
scaled at the end by N/(N−1). -/
theorem unweighted_matches_spec (n : ℕ) (A : ℕ → ℕ → K) (l : ℕ → K)
    (v : ℕ → ℕ → K) (hn : 2 ≤ n) :
    GMFPT_theory n A l v false = some (specUnweightedGMFPT n A l v) := by
  rw [GMFPT_theory, if_pos rfl, if_neg (by omega)]
  congr 1
  funext j
  rw [specUnweightedGMFPT, loopAcc_eq_sum_pred n (by omega)]

/-- Witness for C3: the 2-node chain with a concrete oracle. -/
theorem unweighted_matches_spec_witness :
    2 ≤ 2 ∧ GMFPT_theory 2 chain2 (fun i => if i = 1 then 2 else 0)
        (fun i k => if i = 0 then 1/2 else if k = 0 then 1/2 else -(1/2)) false
      = some (specUnweightedGMFPT 2 chain2 (fun i => if i = 1 then 2 else 0)
        (fun i k => if i = 0 then 1/2 else if k = 0 then 1/2 else -(1/2))) :=
  ⟨by norm_num, unweighted_matches_spec 2 chain2 _ _ (by norm_num)⟩

/-- Amended C1: with N ≥ 2, the weighted call returns the vector obtained by
accumulating, for each node j and each retained mode i, the term
(1/λ_i)·((2E)²·v[i,j]² − 4E·v[i,j]·dvi − dvi²) where dvi = v[i,j]·dv[i]
(not dv[i] itself, as the spec sentence has it), finally divided by 2E. -/
theorem weighted_matches_code_formula (n : ℕ) (A : ℕ → ℕ → K) (l : ℕ → K)
    (v : ℕ → ℕ → K) (hn : 2 ≤ n) :
    GMFPT_theory n A l v true = some (codeWeightedGMFPT n A l v) := by
  rw [GMFPT_theory, if_neg (by simp)]
  congr 1
  funext j
  rw [codeWeightedGMFPT, loopAcc_eq_sum_pred n (by omega)]
  congr 1
  refine Finset.sum_congr rfl (fun i _ => ?_)
  ring

/-- Witness for the amended C1: the concrete 4-node weighted graph. -/
theorem weighted_matches_code_formula_witness :
    2 ≤ 4 ∧ GMFPT_theory 4 w4 w4l w4v true = some (codeWeightedGMFPT 4 w4 w4l w4v) :=
  ⟨by norm_num, weighted_matches_code_formula 4 w4 w4l w4v (by norm_num)⟩

/-- Amended C5: the solver performs no spectrum-degeneracy check at all.
The only failing call is weighted=false with N=1 (the Python float division
by zero of the final scaling); for every other input — disconnected graphs
with several numerically zero eigenvalues included — the solver returns a
vector, the unguarded 1/λ divisions included (in floating point these give
non-finite entries rather than an error). -/
theorem GMFPT_none_iff (n : ℕ) (A : ℕ → ℕ → K) (l : ℕ → K) (v : ℕ → ℕ → K)
    (w : Bool) : GMFPT_theory n A l v w = none ↔ w = false ∧ n = 1 := by
  rw [GMFPT_theory]
  rcases w with _ | _
  · by_cases hn : n = 1
    · simp [hn]
    · simp [hn]
  · simp

/-- Amended C6: scaling the matrix by a positive constant c (under which the
Laplacian eigenvalues scale by c and any orthonormal eigenbasis is
unchanged, as the first conjunct records) leaves the solver's output
invariant in BOTH variants.  The unweighted output does not scale by 1/c as
the spec asserts: the formula computes the dimensionless discrete-time
walk quantity. -/
theorem GMFPT_scale_invariance (n : ℕ) (A : ℕ → ℕ → K) (l : ℕ → K)
    (v : ℕ → ℕ → K) (c : K) (hc : 0 < c) :
    (IsEigenDecomp n A l v → IsEigenDecomp n (scaleM c A) (scaleV c l) v) ∧
    GMFPT_theory n (scaleM c A) (scaleV c l) v false = GMFPT_theory n A l v false ∧
    GMFPT_theory n (scaleM c A) (scaleV c l) v true = GMFPT_theory n A l v true := by
  refine ⟨?_, ?_, ?_⟩
  · rintro ⟨hsort, heig, hnorm, horth⟩
    refine ⟨?_, ?_, hnorm, horth⟩
    · intro i hi j hj hij
      simp only [scaleV]
      exact mul_le_mul_of_nonneg_left (hsort i hi j hj hij) hc.le
    · intro i hi x hx
      simp only [scaleV]
      calc ∑ k ∈ Finset.range n, laplacian n (scaleM c A) x k * v i k
          = ∑ k ∈ Finset.range n, c * (laplacian n A x k * v i k) := by
            refine Finset.sum_congr rfl (fun k _ => ?_)
            rw [laplacian_scale]
            ring
        _ = c * ∑ k ∈ Finset.range n, laplacian n A x k * v i k := by
            rw [Finset.mul_sum]
        _ = c * (l i * v i x) := by rw [heig i hi x hx]
        _ = c * l i * v i x := by ring
  · rw [GMFPT_theory, GMFPT_theory, if_pos rfl, if_pos rfl]
    by_cases hn : n = 1
    · rw [if_pos hn, if_pos hn]
    · rw [if_neg hn, if_neg hn]
      congr 1
      funext j
      congr 1
      rw [loopAcc_eq_sum, loopAcc_eq_sum]
      refine Finset.sum_congr rfl (fun i _ => ?_)
      rw [totalWeight_scale, dproj_scale]
      simp only [scaleV]
      rw [show 2 * (c * totalWeight n A) * v i j ^ 2 - v i j * (c * dproj n A v i)
          = c * (2 * totalWeight n A * v i j ^ 2 - v i j * dproj n A v i) from by ring,
        inv_scale_mul _ _ _ hc.ne']
  · rw [GMFPT_theory, GMFPT_theory, if_neg (by simp), if_neg (by simp)]
    congr 1
    funext j
    rw [loopAcc_eq_sum, loopAcc_eq_sum, totalWeight_scale,
      show (∑ i ∈ Finset.Ico 1 (1 + (n - 1)),
          1 / scaleV c l i * ((2 * (c * totalWeight n A)) ^ 2 * (v i j) ^ 2
            - 2 * v i j * (2 * (c * totalWeight n A)) * (v i j * dproj n (scaleM c A) v i)
            - (v i j * dproj n (scaleM c A) v i) ^ 2))
        = ∑ i ∈ Finset.Ico 1 (1 + (n - 1)),
            c * (1 / l i * ((2 * totalWeight n A) ^ 2 * (v i j) ^ 2
              - 2 * v i j * (2 * totalWeight n A) * (v i j * dproj n A v i)
              - (v i j * dproj n A v i) ^ 2)) from
        Finset.sum_congr rfl (fun i _ => by
          rw [dproj_scale]
          simp only [scaleV]
          rw [show (2 * (c * totalWeight n A)) ^ 2 * (v i j) ^ 2
              - 2 * v i j * (2 * (c * totalWeight n A)) * (v i j * (c * dproj n A v i))
              - (v i j * (c * dproj n A v i)) ^ 2
            = c ^ 2 * ((2 * totalWeight n A) ^ 2 * (v i j) ^ 2
              - 2 * v i j * (2 * totalWeight n A) * (v i j * dproj n A v i)
              - (v i j * dproj n A v i) ^ 2) from by ring,
            inv_scale_mul_sq _ _ _ hc.ne']),
      ← Finset.mul_sum,
      show 2 * (c * totalWeight n A) = c * (2 * totalWeight n A) from by ring,
      mul_div_mul_left _ _ hc.ne']

/-- Witness for the amended C6: the 4-cycle scaled by c = 2. -/
theorem GMFPT_scale_invariance_witness :
    (0 : ℚ) < 2 ∧
    ((IsEigenDecomp 4 cyc4 cyc4l cyc4v →
        IsEigenDecomp 4 (scaleM 2 cyc4) (scaleV 2 cyc4l) cyc4v) ∧
      GMFPT_theory 4 (scaleM 2 cyc4) (scaleV 2 cyc4l) cyc4v false
        = GMFPT_theory 4 cyc4 cyc4l cyc4v false ∧
      GMFPT_theory 4 (scaleM 2 cyc4) (scaleV 2 cyc4l) cyc4v true
        = GMFPT_theory 4 cyc4 cyc4l cyc4v true) :=
  ⟨by norm_num, GMFPT_scale_invariance 4 cyc4 cyc4l cyc4v 2 (by norm_num)⟩

/-- Counterexample to C5 as stated: the two-disjoint-edges graph (symmetric,
non-negative, provably disconnected) has the eigenvalue 0 twice at the
bottom of the sorted spectrum, yet the solver does not fail: it returns a
vector (here with entry 4/3 at node 0 — the mode with λ = 0 enters the sum
through the unguarded 1/λ division). -/
theorem degenerate_spectrum_cex :
    MatSymm 4 disc4 ∧ MatNonneg 4 disc4 ∧ ¬ IsConnected 4 disc4 ∧
    disc4l 0 = 0 ∧ disc4l 1 = 0 ∧ IsEigenDecomp 4 disc4 disc4l disc4v ∧
    (GMFPT_theory 4 disc4 disc4l disc4v false).isSome = true ∧
    ((GMFPT_theory 4 disc4 disc4l disc4v false).getD (fun _ => 0)) 0 = 4/3 := by
  refine ⟨?_, ?_, ?_, by norm_num [disc4l], by norm_num [disc4l],
    ⟨?_, ?_, ?_, ?_⟩, rfl, ?_⟩
  · intro i hi j hj
    interval_cases i <;> interval_cases j <;> norm_num [disc4]
  · intro i hi j hj
    interval_cases i <;> interval_cases j <;> norm_num [disc4]
  · intro hcon
    have key : ∀ x, Relation.ReflTransGen (Adj 4 disc4) 0 x → x < 2 := by
      intro x hx
      induction hx with
      | refl => omega
      | @tail b c hr hstep ih =>
          obtain ⟨hb4, hc4, hne⟩ := hstep
          interval_cases b <;> interval_cases c <;>
            first | omega | simp [disc4] at hne
    have h2 := key 2 (hcon 0 (by omega) 2 (by omega))
    omega
  · intro i hi j hj hij
    interval_cases i <;> interval_cases j <;>
      first | exact absurd hij (by omega) | norm_num [disc4l]
  · intro i hi x hx
    interval_cases i <;> interval_cases x <;>
      norm_num [laplacian, degree, disc4, disc4l, disc4v, Finset.sum_range_succ,
        Finset.sum_range_zero]
  · intro i hi
    interval_cases i <;>
      norm_num [disc4v, Finset.sum_range_succ, Finset.sum_range_zero]
  · intro i hi j hj hij
    interval_cases i <;> interval_cases j <;>
      first
        | exact absurd rfl hij
        | norm_num [disc4v, Finset.sum_range_succ, Finset.sum_range_zero]
  · rw [GMFPT_theory]
    norm_num [loopAcc, List.range', totalWeight, degree, dproj, disc4, disc4l,
      disc4v, Finset.sum_range_succ, Finset.sum_range_zero]

/-- Counterexample to C6 as stated: for the (symmetric, non-negative,
connected) unit 4-cycle, doubling the matrix leaves the unweighted output
unchanged (10/3 at node 0 both before and after scaling), whereas the claim
demands it become (1/2)·(10/3). -/
theorem unweighted_scale_cex :
    MatSymm 4 cyc4 ∧ MatNonneg 4 cyc4 ∧ IsConnected 4 cyc4 ∧
    IsEigenDecomp 4 cyc4 cyc4l cyc4v ∧
    IsEigenDecomp 4 (scaleM 2 cyc4) (scaleV 2 cyc4l) cyc4v ∧
    ((GMFPT_theory 4 cyc4 cyc4l cyc4v false).getD (fun _ => 0)) 0 = 10/3 ∧
    ((GMFPT_theory 4 (scaleM 2 cyc4) (scaleV 2 cyc4l) cyc4v false).getD
      (fun _ => 0)) 0 = 10/3 ∧
    (10/3 : ℚ) ≠ 1/2 * (10/3) := by
  refine ⟨?_, ?_, ?_, ⟨?_, ?_, ?_, ?_⟩, ⟨?_, ?_, ?_, ?_⟩, ?_, ?_, by norm_num⟩
  · intro i hi j hj
    interval_cases i <;> interval_cases j <;> norm_num [cyc4]
  · intro i hi j hj
    interval_cases i <;> interval_cases j <;> norm_num [cyc4]
  · have a01 : Adj 4 cyc4 0 1 := ⟨by omega, by omega, by norm_num [cyc4]⟩
    have a10 : Adj 4 cyc4 1 0 := ⟨by omega, by omega, by norm_num [cyc4]⟩
    have a12 : Adj 4 cyc4 1 2 := ⟨by omega, by omega, by norm_num [cyc4]⟩
    have a21 : Adj 4 cyc4 2 1 := ⟨by omega, by omega, by norm_num [cyc4]⟩
    have a23 : Adj 4 cyc4 2 3 := ⟨by omega, by omega, by norm_num [cyc4]⟩
    have a32 : Adj 4 cyc4 3 2 := ⟨by omega, by omega, by norm_num [cyc4]⟩
    have a03 : Adj 4 cyc4 0 3 := ⟨by omega, by omega, by norm_num [cyc4]⟩
    have a30 : Adj 4 cyc4 3 0 := ⟨by omega, by omega, by norm_num [cyc4]⟩
    intro i hi j hj
    interval_cases i <;> interval_cases j
    · exact Relation.ReflTransGen.refl
    · exact Relation.ReflTransGen.single a01
    · exact Relation.ReflTransGen.tail (Relation.ReflTransGen.single a01) a12
    · exact Relation.ReflTransGen.single a03
    · exact Relation.ReflTransGen.single a10
    · exact Relation.ReflTransGen.refl
    · exact Relation.ReflTransGen.single a12
    · exact Relation.ReflTransGen.tail (Relation.ReflTransGen.single a12) a23
    · exact Relation.ReflTransGen.tail (Relation.ReflTransGen.single a21) a10
    · exact Relation.ReflTransGen.single a21
    · exact Relation.ReflTransGen.refl
    · exact Relation.ReflTransGen.single a23
    · exact Relation.ReflTransGen.single a30
    · exact Relation.ReflTransGen.tail (Relation.ReflTransGen.single a30) a01
    · exact Relation.ReflTransGen.single a32
    · exact Relation.ReflTransGen.refl
  · intro i hi j hj hij
    interval_cases i <;> interval_cases j <;>
      first | exact absurd hij (by omega) | norm_num [cyc4l]
  · intro i hi x hx
    interval_cases i <;> interval_cases x <;>
      norm_num [laplacian, degree, cyc4, cyc4l, cyc4v, Finset.sum_range_succ,
        Finset.sum_range_zero]
  · intro i hi
    interval_cases i <;>
      norm_num [cyc4v, Finset.sum_range_succ, Finset.sum_range_zero]
  · intro i hi j hj hij
    interval_cases i <;> interval_cases j <;>
      first
        | exact absurd rfl hij
        | norm_num [cyc4v, Finset.sum_range_succ, Finset.sum_range_zero]
  · intro i hi j hj hij
    interval_cases i <;> interval_cases j <;>
      first | exact absurd hij (by omega) | norm_num [scaleV, cyc4l]
  · intro i hi x hx
    interval_cases i <;> interval_cases x <;>
      norm_num [laplacian, degree, scaleM, scaleV, cyc4, cyc4l, cyc4v,
        Finset.sum_range_succ, Finset.sum_range_zero]
  · intro i hi
    interval_cases i <;>
      norm_num [cyc4v, Finset.sum_range_succ, Finset.sum_range_zero]
  · intro i hi j hj hij
    interval_cases i <;> interval_cases j <;>
      first
        | exact absurd rfl hij
        | norm_num [cyc4v, Finset.sum_range_succ, Finset.sum_range_zero]
  · rw [GMFPT_theory]
    norm_num [loopAcc, List.range', totalWeight, degree, dproj, cyc4, cyc4l,
      cyc4v, Finset.sum_range_succ, Finset.sum_range_zero]
  · rw [GMFPT_theory]
    norm_num [loopAcc, List.range', totalWeight, degree, dproj, scaleM, scaleV,
      cyc4, cyc4l, cyc4v, Finset.sum_range_succ, Finset.sum_range_zero]

/-- Counterexample to C1 as stated: for the symmetric, non-negative,
connected 4-node graph `w4` with its exact sorted orthonormal Laplacian
eigendecomposition, the weighted solver returns 80093/34992 at node 0,
whereas the formula worded in the spec (with dv[i] in the last two terms)
gives 8909/3888 there. -/
theorem weighted_spec_formula_cex :
    MatSymm 4 w4 ∧ MatNonneg 4 w4 ∧ IsConnected 4 w4 ∧
    IsEigenDecomp 4 w4 w4l w4v ∧
    ((GMFPT_theory 4 w4 w4l w4v true).getD (fun _ => 0)) 0 = 80093/34992 ∧
    specWeightedGMFPT 4 w4 w4l w4v 0 = 8909/3888 ∧
    (80093/34992 : ℚ) ≠ 8909/3888 := by
  refine ⟨?_, ?_, ?_, ⟨?_, ?_, ?_, ?_⟩, ?_, ?_, by norm_num⟩
  · intro i hi j hj
    interval_cases i <;> interval_cases j <;> norm_num [w4]
  · intro i hi j hj
    interval_cases i <;> interval_cases j <;> norm_num [w4]
  · intro i hi j hj
    by_cases hij : i = j
    · subst hij
      exact Relation.ReflTransGen.refl
    · refine Relation.ReflTransGen.single ⟨hi, hj, ?_⟩
      interval_cases i <;> interval_cases j <;>
        first | exact absurd rfl hij | norm_num [w4]
  · intro i hi j hj hij
    interval_cases i <;> interval_cases j <;>
      first | exact absurd hij (by omega) | norm_num [w4l]
  · intro i hi x hx
    interval_cases i <;> interval_cases x <;>
      norm_num [laplacian, degree, w4, w4l, w4v, Finset.sum_range_succ,
        Finset.sum_range_zero]
  · intro i hi
    interval_cases i <;>
      norm_num [w4v, Finset.sum_range_succ, Finset.sum_range_zero]
  · intro i hi j hj hij
    interval_cases i <;> interval_cases j <;>
      first
        | exact absurd rfl hij
        | norm_num [w4v, Finset.sum_range_succ, Finset.sum_range_zero]
  · rw [GMFPT_theory]
    norm_num [loopAcc, List.range', totalWeight, degree, dproj, w4, w4l, w4v,
      Finset.sum_range_succ, Finset.sum_range_zero]
  · rw [specWeightedGMFPT, show Finset.Ico 1 4 = {1, 2, 3} from rfl]
    norm_num [totalWeight, degree, dproj, w4, w4l, w4v, Finset.sum_range_succ,
      Finset.sum_range_zero, Finset.sum_insert, Finset.mem_insert]

end TFKinetics
